import Mathlib

/-!
# boring1.go: a producer goroutine and a consumer over an unbuffered channel

The program under study is

    func main() {
        c := make(chan string)
        go boring("boring!", c)
        for i := 0; i < 5; i++ {
            fmt.Printf("You say: %q\n", <-c)
        }
        fmt.Println("You are boring, I'm leaving")
    }

    func boring(msg string, ch chan<- string) {
        for i := 0; ; i++ {
            ch <- fmt.Sprintf("%s %d", msg, i)
            time.Sleep(time.Duration(rand.Intn(1e3)) * time.Millisecond)
        }
    }

It is embedded as an interleaving transition system.  Each goroutine has a
program counter; the scheduler picks which goroutine moves; a communication
over the unbuffered channel is one joint step of a blocked sender and a
blocked receiver; once `main` has returned the process is gone and nothing
moves.  Go `int` and `time.Duration` are 64-bit two's complement integers,
modelled as `Int` with explicit wraparound.  The library pieces the program
calls (`%d`, `%q`, `rand.Intn`) are modelled next to the code: the values
returned by `rand.Intn` and the Unicode printability table come in through
the environment `Env`.
-/

namespace Boring

/-! ## Machine integers -/

/-- Two's complement wraparound of a 64-bit signed integer (Go `int` on 64-bit
targets, and `int64`, the representation of `time.Duration`). -/
def wrapInt (x : Int) : Int :=
  (x + 9223372036854775808) % 18446744073709551616 - 9223372036854775808

/-- Largest value of a 64-bit signed integer. -/
def maxInt : Int := 9223372036854775807

/-- Smallest value of a 64-bit signed integer. -/
def minInt : Int := -9223372036854775808

/-! ## Formatting -/

/-- The verb `%d` applied to an `int`: a minus sign for negative values, then the
base-10 digits. -/
def fmtInt (i : Int) : String :=
  if i < 0 then "-" ++ Nat.repr i.natAbs else Nat.repr i.toNat

/-- The call `fmt.Sprintf("%s %d", msg, i)`. -/
def sprintf (msg : String) (i : Int) : String :=
  msg ++ " " ++ fmtInt i

/-- Digit `n` of `strconv`'s table `lowerhex`. -/
def hexDigit (n : Nat) : Char :=
  ['0', '1', '2', '3', '4', '5', '6', '7', '8', '9', 'a', 'b', 'c', 'd', 'e', 'f'].getD (n % 16) '0'

/-- The function `strconv.IsPrint`: the Latin-1 range is decided inline as in the library; code
points above `0xFF` are looked up in the Unicode tables, taken as the
parameter `table`. -/
def isPrint (table : Nat → Bool) (r : Nat) : Bool :=
  if r ≤ 0xFF then
    if 0x20 ≤ r ∧ r ≤ 0x7E then true
    else if 0xA1 ≤ r then r != 0xAD
    else false
  else table r

/-- The double quote character, code point 34. -/
def dquote : Char := Char.ofNat 34

/-- The backslash character, code point 92. -/
def backslash : Char := Char.ofNat 92

/-- The function `strconv.appendEscapedRune` with quote character `"`, as `%q` calls it
(neither ASCII-only nor graphic-only).  A Lean `Char` is always a valid
Unicode scalar value, so the library's branch for invalid runes does not
arise. -/
def appendEscapedRune (table : Nat → Bool) (c : Char) : List Char :=
  if c = dquote ∨ c = backslash then [backslash, c]
  else if isPrint table c.toNat then [c]
  else if c.toNat = 7 then [backslash, 'a']
  else if c.toNat = 8 then [backslash, 'b']
  else if c.toNat = 12 then [backslash, 'f']
  else if c.toNat = 10 then [backslash, 'n']
  else if c.toNat = 13 then [backslash, 'r']
  else if c.toNat = 9 then [backslash, 't']
  else if c.toNat = 11 then [backslash, 'v']
  else if c.toNat < 0x20 ∨ c.toNat = 0x7F then
    [backslash, 'x', hexDigit (c.toNat / 16), hexDigit c.toNat]
  else if c.toNat < 0x10000 then
    [backslash, 'u', hexDigit (c.toNat / 4096), hexDigit (c.toNat / 256),
      hexDigit (c.toNat / 16), hexDigit c.toNat]
  else
    [backslash, 'U', hexDigit (c.toNat / 268435456), hexDigit (c.toNat / 16777216),
      hexDigit (c.toNat / 1048576), hexDigit (c.toNat / 65536),
      hexDigit (c.toNat / 4096), hexDigit (c.toNat / 256),
      hexDigit (c.toNat / 16), hexDigit c.toNat]

/-- The escaped body of a quoted string: every rune through
`appendEscapedRune`. -/
def quoteBody (table : Nat → Bool) : List Char → List Char
  | [] => []
  | c :: cs => appendEscapedRune table c ++ quoteBody table cs

/-- The verb `%q` applied to a string (`strconv.Quote`). -/
def quote (table : Nat → Bool) (s : String) : String :=
  String.mk (dquote :: (quoteBody table s.data ++ [dquote]))

/-- What `fmt.Printf("You say: %q\n", m)` writes. -/
def printfYouSay (table : Nat → Bool) (m : String) : String :=
  "You say: " ++ quote table m ++ "\n"

/-- What `fmt.Println("You are boring, I'm leaving")` writes. -/
def printlnLeaving : String :=
  "You are boring, I'm leaving" ++ "\n"

/-! ## Sleep duration -/

/-- The constant `time.Millisecond`, in nanoseconds. -/
def millisecond : Int := 1000000

/-- The product `time.Duration(r) * time.Millisecond` for `r` the value returned by
`rand.Intn(1e3)`: a 64-bit multiplication, in nanoseconds. -/
def sleepDuration (r : Nat) : Int :=
  wrapInt (wrapInt (r : Int) * millisecond)

/-! ## The environment -/

/-- What the program takes from outside: the Unicode printability table used by
`%q`, and the values returned by the successive calls of `rand.Intn(1e3)`
(call number `k` returns `intn k`; the library promises `intn k < 1000`). -/
structure Env where
  table : Nat → Bool
  intn : Nat → Nat

/-! ## The producer goroutine `boring` -/

/-- Program counter of `boring`. -/
inductive ProducerPc where
  /-- At the top of the loop body, about to evaluate `fmt.Sprintf` and send. -/
  | format
  /-- Blocked in `ch <- m`. -/
  | sending (m : String)
  /-- The send has completed; about to call `rand.Intn` and `time.Sleep`. -/
  | afterSend
  /-- Inside `time.Sleep(d)`. -/
  | sleeping (d : Int)
  /-- Past the loop: the function has returned. -/
  | returned
  deriving DecidableEq, Repr

/-- State of the goroutine running `boring`.  The fields `sent`, `sends` and
`calls` are history: the messages on which a send statement was executed,
the number of sends that completed, the number of calls of `rand.Intn`. -/
structure Producer where
  msg : String
  i : Int
  pc : ProducerPc
  sent : List String
  sends : Nat
  calls : Nat
  deriving DecidableEq, Repr

/-- Entry of `boring(msg, ch)`, after the loop's init statement `i := 0`. -/
def boring (msg : String) : Producer :=
  { msg := msg, i := 0, pc := .format, sent := [], sends := 0, calls := 0 }

/-- One step of `boring`'s control flow.  The loop `for i := 0; ; i++` has no
condition, so the post statement always leads back to the body.  The step
out of `sending` is the completion of the send, which needs a receiver. -/
def boringStep (env : Env) (p : Producer) : Option Producer :=
  match p.pc with
  | .format =>
    some { p with pc := .sending (sprintf p.msg p.i), sent := p.sent ++ [sprintf p.msg p.i] }
  | .sending _ => some { p with pc := .afterSend, sends := p.sends + 1 }
  | .afterSend =>
    some { p with pc := .sleeping (sleepDuration (env.intn p.calls)), calls := p.calls + 1 }
  | .sleeping _ => some { p with pc := .format, i := wrapInt (p.i + 1) }
  | .returned => none

/-- The producer on its own, with a receiver always ready: `n` steps of
`boringStep`. -/
def runProducer (env : Env) : Nat → Producer → Option Producer
  | 0, p => some p
  | n + 1, p => (boringStep env p).bind (runProducer env n)

/-- Loop iteration `k` of `boring` (counting from 0) at the moment the producer is
blocked in its send: each iteration takes four steps (format, send, call
`rand.Intn`, sleep and `i++`), and one more step formats the message. -/
def iteration (env : Env) (msg : String) (k : Nat) : Option Producer :=
  runProducer env (4 * k + 1) (boring msg)

/-- The counter `i` held by `boring` in iteration `k`. -/
def carried (env : Env) (msg : String) (k : Nat) : Option Int :=
  (iteration env msg k).map fun p => p.i

/-- The message that `boring` sends in iteration `k`. -/
def messageAt (env : Env) (msg : String) (k : Nat) : Option String :=
  (iteration env msg k).bind fun p =>
    match p.pc with
    | .sending m => some m
    | _ => none

/-! ## The main goroutine -/

/-- Program counter of `main`, with the loop variable `i` where it is live. -/
inductive MainPc where
  /-- About to run `c := make(chan string)`. -/
  | makeChan
  /-- About to run `go boring("boring!", c)`. -/
  | goBoring
  /-- About to test `i < 5`. -/
  | loopTest (i : Int)
  /-- Blocked in `<-c`. -/
  | recv (i : Int)
  /-- Holding the received message `m`, about to print it. -/
  | printf (i : Int) (m : String)
  /-- About to run the final `fmt.Println`. -/
  | println
  /-- The function `main` has returned: the process has exited. -/
  | exited
  deriving DecidableEq, Repr

/-- State of the whole program.  `received` is the history of the messages taken
from the channel. -/
structure State where
  mainPc : MainPc
  producer : Option Producer
  stdout : String
  received : List String
  deriving DecidableEq, Repr

/-- The start of the program. -/
def main : State :=
  { mainPc := .makeChan, producer := none, stdout := "", received := [] }

/-- The scheduler's choices. -/
inductive Action where
  /-- The main goroutine runs its next statement. -/
  | main
  /-- The producer goroutine runs its next statement. -/
  | producer
  /-- The blocked sender and the blocked receiver communicate. -/
  | communicate
  deriving DecidableEq, Repr

/-- One step of `main` on its own.  A receive cannot proceed alone. -/
def mainStep (env : Env) (s : State) : Option State :=
  match s.mainPc with
  | .makeChan => some { s with mainPc := .goBoring }
  | .goBoring => some { s with mainPc := .loopTest 0, producer := some (boring "boring!") }
  | .loopTest i => some { s with mainPc := if i < 5 then .recv i else .println }
  | .recv _ => none
  | .printf i m =>
    some { s with mainPc := .loopTest (wrapInt (i + 1)),
                  stdout := s.stdout ++ printfYouSay env.table m }
  | .println => some { s with mainPc := .exited, stdout := s.stdout ++ printlnLeaving }
  | .exited => none

/-- One step of the producer on its own.  A send cannot proceed alone, and
nothing runs once the process has exited. -/
def producerStep (env : Env) (s : State) : Option State :=
  match s.mainPc, s.producer with
  | .exited, _ => none
  | _, none => none
  | _, some p =>
    match p.pc with
    | .sending _ => none
    | _ => (boringStep env p).map fun q => { s with producer := some q }

/-- The rendezvous on the unbuffered channel: the sender blocked in `ch <- m` and
the receiver blocked in `<-c` proceed together, and `m` is handed over. -/
def communicate (env : Env) (s : State) : Option State :=
  match s.mainPc, s.producer with
  | .recv i, some p =>
    match p.pc with
    | .sending m =>
      (boringStep env p).map fun q =>
        { s with mainPc := .printf i m, producer := some q, received := s.received ++ [m] }
    | _ => none
  | _, _ => none

/-- One step of the program under the scheduler's choice `a`; `none` when `a` is
not enabled. -/
def step (env : Env) (a : Action) (s : State) : Option State :=
  match a with
  | .main => mainStep env s
  | .producer => producerStep env s
  | .communicate => communicate env s

/-- Run a schedule. -/
def exec (env : Env) : List Action → State → Option State
  | [], s => some s
  | a :: as, s => (step env a s).bind (exec env as)

/-! ## Observations -/

/-- The states of the consumer in the specification's state machine. -/
inductive ConsumerState where
  | starting
  | receiving (i : Int)
  | done
  deriving DecidableEq, Repr

/-- The consumer state of a program counter of `main`: `receiving i` while the loop
waits for receipt number `i` (counting from 0), `done` once the loop is
over. -/
def consumerState : MainPc → ConsumerState
  | .makeChan => .starting
  | .goBoring => .starting
  | .loopTest i => if i < 5 then .receiving i else .done
  | .recv i => .receiving i
  | .printf i _ => if wrapInt (i + 1) < 5 then .receiving (wrapInt (i + 1)) else .done
  | .println => .done
  | .exited => .done

/-- Lines of a text: the pieces ended by a newline, and the unfinished rest if there
is one.  `cur` is the current line, reversed. -/
def splitLines : List Char → List Char → List String
  | [], cur => if cur = [] then [] else [String.mk cur.reverse]
  | c :: cs, cur =>
    if c = '\n' then String.mk cur.reverse :: splitLines cs []
    else splitLines cs (c :: cur)

/-- The lines written to standard output so far. -/
def outLines (s : State) : List String :=
  splitLines s.stdout.data []

/-- The closing line. -/
def closingLine : String := "You are boring, I'm leaving"

/-- The message line for the message `m`, as the specification writes it. -/
def messageLine (m : String) : String :=
  "You say: " ++ String.mk [dquote] ++ m ++ String.mk [dquote]

/-- What a run shows to an observer: the messages sent and the text printed. -/
def observe (s : State) : List String × String :=
  (match s.producer with
   | none => []
   | some p => p.sent, s.stdout)

/-- A schedule that runs the program to its end: each iteration the producer
formats, both communicate, main prints and tests. -/
def fullSchedule : List Action :=
  [.main, .main] ++
  (List.replicate 5 [Action.main, .producer, .communicate, .producer, .producer, .main]).flatten ++
  [.main, .main]

/-- An environment for examples: delays 0, 1, 2, ... modulo 1000. -/
def sampleEnv : Env :=
  { table := fun _ => false, intn := fun k => k % 1000 }

/-! ## Invariant, bound on the length of runs, and example runs -/

/-- The list of the first `k` messages of `boring msg`. -/
def sentUpTo (msg : String) (k : Nat) : List String :=
  (List.range k).map fun (j : Nat) => sprintf msg (wrapInt (j : Int))

/-- The first `n` messages of the run of `main`. -/
def msgsTo (n : Nat) : List String :=
  (List.range n).map fun (j : Nat) => sprintf "boring!" (j : Int)

/-- The text on standard output after `n` messages were printed. -/
def outAfter (table : Nat → Bool) : Nat → String
  | 0 => ""
  | n + 1 => outAfter table n ++ printfYouSay table (sprintf "boring!" (n : Int))

/-- What holds of `main` once `n` messages were received. -/
def MainInv (env : Env) (n : Nat) (s : State) : Prop :=
  match s.mainPc with
  | .makeChan => n = 0 ∧ s.producer = none ∧ s.stdout = ""
  | .goBoring => n = 0 ∧ s.producer = none ∧ s.stdout = ""
  | .loopTest i => i = n ∧ s.stdout = outAfter env.table n ∧ s.producer ≠ none
  | .recv i => i = n ∧ n < 5 ∧ s.stdout = outAfter env.table n ∧ s.producer ≠ none
  | .printf i m =>
    ∃ k, n = k + 1 ∧ i = k ∧ m = sprintf "boring!" (k : Int) ∧ s.stdout = outAfter env.table k
      ∧ s.producer ≠ none
  | .println => n = 5 ∧ s.stdout = outAfter env.table 5 ∧ s.producer ≠ none
  | .exited => n = 5 ∧ s.stdout = outAfter env.table 5 ++ printlnLeaving ∧ s.producer ≠ none

/-- What holds of the producer once `n` messages were received. -/
def ProducerInv (n : Nat) (p : Producer) : Prop :=
  p.msg = "boring!" ∧ p.sends = n ∧
  match p.pc with
  | .format => p.i = n ∧ p.sent = msgsTo n
  | .sending m => p.i = n ∧ m = sprintf "boring!" (n : Int) ∧ p.sent = msgsTo (n + 1)
  | .afterSend => ∃ k, n = k + 1 ∧ p.i = k ∧ p.sent = msgsTo n
  | .sleeping _ => ∃ k, n = k + 1 ∧ p.i = k ∧ p.sent = msgsTo n
  | .returned => False

/-- The invariant of the program. -/
def Inv (env : Env) (s : State) : Prop :=
  ∃ n, n ≤ 5 ∧ s.received = msgsTo n ∧ MainInv env n s ∧
    ∀ p, s.producer = some p → ProducerInv n p

/-- Steps that `main` can still take from a program counter. -/
def mainPotential : MainPc → Nat
  | .makeChan => 19
  | .goBoring => 18
  | .loopTest i => 17 - 3 * i.toNat
  | .recv i => 16 - 3 * i.toNat
  | .printf i _ => 15 - 3 * i.toNat
  | .println => 1
  | .exited => 0

/-- Steps that the producer can still take before `main` stops receiving. -/
def producerPotential : Option Producer → Nat
  | none => 16
  | some p =>
    match p.pc with
    | .format => 16 - 3 * p.i.toNat
    | .sending _ => 15 - 3 * p.i.toNat
    | .afterSend => 15 - 3 * p.i.toNat
    | .sleeping _ => 14 - 3 * p.i.toNat
    | .returned => 0

/-- A bound on the number of steps left in any run from `s`. -/
def potential (s : State) : Nat :=
  mainPotential s.mainPc + producerPotential s.producer

/-- The six lines of a complete run. -/
def sixLines : String :=
  "You say: \"boring! 0\"\nYou say: \"boring! 1\"\nYou say: \"boring! 2\"\nYou say: \"boring! 3\"\nYou say: \"boring! 4\"\nYou are boring, I'm leaving\n"

/-- Runes that `%q` leaves as they are: printable ASCII other than the double quote
and the backslash. -/
def plain (c : Char) : Bool :=
  decide (0x20 ≤ c.toNat) && decide (c.toNat ≤ 0x7E) && (c != dquote) && (c != backslash)

/-- Forget how long a sleeping producer sleeps. -/
def Producer.eraseSleep (p : Producer) : Producer :=
  match p.pc with
  | .sleeping _ => { p with pc := .sleeping 0 }
  | _ => p

/-- Forget how long the producer sleeps: everything else in the state stays. -/
def State.eraseSleep (s : State) : State :=
  { s with producer := s.producer.map Producer.eraseSleep }

/-- The number of sends the producer has completed. -/
def sendsCompleted (s : State) : Nat :=
  match s.producer with
  | none => 0
  | some p => p.sends

/-- The messages on which the producer has executed its send statement. -/
def sentSoFar (s : State) : List String :=
  (observe s).1

/-- The state at the end of `fullSchedule` under `sampleEnv`. -/
def finalState : State :=
  { mainPc := .exited,
    producer := some { msg := "boring!", i := 5, pc := .format,
                       sent := ["boring! 0", "boring! 1", "boring! 2", "boring! 3", "boring! 4"],
                       sends := 5, calls := 5 },
    stdout := sixLines,
    received := ["boring! 0", "boring! 1", "boring! 2", "boring! 3", "boring! 4"] }

/-- A schedule that stops in the middle of the run: two messages were handed over,
one of them printed, and the producer sleeps. -/
def midSchedule : List Action :=
  [.main, .main, .main, .producer, .communicate, .producer, .producer, .main, .main,
   .producer, .communicate, .producer]

/-- The state at the end of `midSchedule` under `sampleEnv`. -/
def midState : State :=
  { mainPc := .printf 1 "boring! 1",
    producer := some { msg := "boring!", i := 1, pc := .sleeping 1000000,
                       sent := ["boring! 0", "boring! 1"], sends := 2, calls := 2 },
    stdout := "You say: \"boring! 0\"\n",
    received := ["boring! 0", "boring! 1"] }

/-- A schedule in which the producer runs ahead as far as it can: it formats its sixth
message while `main` is about to print its closing line. -/
def eagerSchedule : List Action :=
  [.main, .main] ++
  (List.replicate 5 [Action.main, .producer, .communicate, .producer, .producer, .main]).flatten ++
  [.main, .producer]

/-- The state at the end of `eagerSchedule` under `sampleEnv`. -/
def eagerState : State :=
  { mainPc := .println,
    producer := some { msg := "boring!", i := 5, pc := .sending "boring! 5",
                       sent := ["boring! 0", "boring! 1", "boring! 2", "boring! 3", "boring! 4",
                                "boring! 5"],
                       sends := 5, calls := 5 },
    stdout := "You say: \"boring! 0\"\nYou say: \"boring! 1\"\nYou say: \"boring! 2\"\nYou say: \"boring! 3\"\nYou say: \"boring! 4\"\n",
    received := ["boring! 0", "boring! 1", "boring! 2", "boring! 3", "boring! 4"] }

/-! ## Arithmetic of the machine integers -/

theorem wrapInt_of_inRange (x : Int) (h1 : minInt ≤ x) (h2 : x ≤ maxInt) : wrapInt x = x := by
  unfold wrapInt
  unfold minInt at h1
  unfold maxInt at h2
  omega

theorem wrapInt_succ_wrapInt (x : Int) : wrapInt (wrapInt x + 1) = wrapInt (x + 1) := by
  unfold wrapInt
  omega

theorem sleepDuration_of_lt (r : Nat) (hr : r < 1000) : sleepDuration r = (r : Int) * 1000000 := by
  unfold sleepDuration millisecond
  rw [wrapInt_of_inRange (r : Int) (by unfold minInt; omega) (by unfold maxInt; omega)]
  exact wrapInt_of_inRange _ (by unfold minInt; omega) (by unfold maxInt; omega)

/-! ## The producer on its own -/

theorem runProducer_add (env : Env) (m n : Nat) (p : Producer) :
    runProducer env (m + n) p = (runProducer env m p).bind (runProducer env n) := by
  induction m generalizing p with
  | zero => simp [runProducer]
  | succ m ih =>
    rw [Nat.succ_add]
    simp only [runProducer]
    cases boringStep env p with
    | none => rfl
    | some q => simpa using ih q

theorem sentUpTo_succ (msg : String) (k : Nat) :
    sentUpTo msg (k + 1) = sentUpTo msg k ++ [sprintf msg (wrapInt (k : Int))] := by
  simp [sentUpTo, List.range_succ]

theorem runProducer_loop (env : Env) (msg : String) (k : Nat) :
    runProducer env (4 * k) (boring msg) =
      some { msg := msg, i := wrapInt (k : Int), pc := .format, sent := sentUpTo msg k,
             sends := k, calls := k } := by
  induction k with
  | zero => rfl
  | succ k ih =>
    rw [show 4 * (k + 1) = 4 * k + 4 by ring, runProducer_add, ih]
    simp only [Option.some_bind, runProducer, boringStep, sentUpTo_succ]
    simp [wrapInt_succ_wrapInt]

theorem iteration_eq (env : Env) (msg : String) (k : Nat) :
    iteration env msg k =
      some { msg := msg, i := wrapInt (k : Int), pc := .sending (sprintf msg (wrapInt (k : Int))),
             sent := sentUpTo msg (k + 1), sends := k, calls := k } := by
  unfold iteration
  rw [runProducer_add, runProducer_loop]
  simp [runProducer, boringStep, sentUpTo_succ]

/-! ## The invariant is kept by every step -/

theorem msgsTo_succ (n : Nat) : msgsTo (n + 1) = msgsTo n ++ [sprintf "boring!" (n : Int)] := by
  simp [msgsTo, List.range_succ]

theorem msgsTo_length (n : Nat) : (msgsTo n).length = n := by
  unfold msgsTo
  rw [List.length_map, List.length_range]

theorem wrapInt_small (n : Nat) (h : n ≤ 5) : wrapInt ((n : Int) + 1) = ((n + 1 : Nat) : Int) := by
  unfold wrapInt
  omega

theorem inv_main (env : Env) : Inv env main :=
  ⟨0, by decide, rfl, ⟨rfl, rfl, rfl⟩, by intro p h; cases h⟩

theorem inv_mainStep (env : Env) (s t : State) (hs : Inv env s) (h : mainStep env s = some t) :
    Inv env t := by
  obtain ⟨n, hn, hr, hm, hp⟩ := hs
  rcases s with ⟨mpc, prod, out, rcv⟩
  cases mpc <;> simp only [mainStep, Option.some.injEq, reduceCtorEq] at h <;> subst h
  · exact ⟨n, hn, hr, hm, hp⟩
  · simp only [MainInv] at hm
    obtain ⟨h0, hnone, hout⟩ := hm
    subst h0
    refine ⟨0, hn, hr, ?_, ?_⟩
    · simp [MainInv, outAfter, hout]
    · intro p h
      simp only [Option.some.injEq] at h
      subst h
      simp [ProducerInv, boring, msgsTo]
  · rename_i i
    simp only [MainInv] at hm
    obtain ⟨hi, hout, hsome⟩ := hm
    refine ⟨n, hn, hr, ?_, hp⟩
    by_cases h5 : i < 5
    · simp only [h5, if_true, MainInv]
      exact ⟨hi, by omega, hout, hsome⟩
    · simp only [h5, if_false, MainInv]
      have : n = 5 := by omega
      subst this
      exact ⟨rfl, hout, hsome⟩
  · rename_i i m
    simp only [MainInv] at hm
    obtain ⟨k, hk, hi, hmm, hout, hsome⟩ := hm
    refine ⟨n, hn, hr, ?_, hp⟩
    subst hk hi hmm
    simp only [MainInv]
    refine ⟨wrapInt_small k (by omega), ?_, hsome⟩
    simp [outAfter, hout]
  · simp only [MainInv] at hm
    obtain ⟨h5, hout, hsome⟩ := hm
    refine ⟨n, hn, hr, ?_, hp⟩
    simp [MainInv, h5, hout, hsome]

set_option linter.unnecessarySimpa false in
theorem inv_producerStep (env : Env) (s t : State) (hs : Inv env s)
    (h : producerStep env s = some t) : Inv env t := by
  obtain ⟨n, hn, hr, hm, hp⟩ := hs
  rcases s with ⟨mpc, prod, out, rcv⟩
  cases prod with
  | none => cases mpc <;> simp [producerStep] at h
  | some p =>
    have hpi := hp p rfl
    rcases p with ⟨msg, i, pc, sent, sends, calls⟩
    obtain ⟨hmsg, hsends, hpc⟩ := hpi
    simp only at hmsg hsends hpc
    cases pc <;> cases mpc <;>
      simp only [producerStep, boringStep, Option.map_some', Option.map_none',
        Option.some.injEq, reduceCtorEq] at h <;>
      subst h <;>
      refine ⟨n, hn, hr, (by simpa [MainInv] using hm), ?_⟩ <;>
      intro q hq <;>
      simp only [Option.some.injEq] at hq <;>
      subst hq <;>
      simp only [ProducerInv] at hpc ⊢ <;>
      first
        | (obtain ⟨hi, hsent⟩ := hpc
           subst hmsg hi hsent
           exact ⟨rfl, hsends, rfl, rfl, (msgsTo_succ n).symm⟩)
        | (obtain ⟨k, hk, hi, hsent⟩ := hpc
           exact ⟨hmsg, hsends, k, hk, hi, hsent⟩)
        | (obtain ⟨k, hk, hi, hsent⟩ := hpc
           subst hk hi
           exact ⟨hmsg, hsends, wrapInt_small k (by omega), hsent⟩)

theorem inv_communicate (env : Env) (s t : State) (hs : Inv env s)
    (h : communicate env s = some t) : Inv env t := by
  obtain ⟨n, hn, hr, hm, hp⟩ := hs
  rcases s with ⟨mpc, prod, out, rcv⟩
  cases prod with
  | none => cases mpc <;> simp [communicate] at h
  | some p =>
    have hpi := hp p rfl
    rcases p with ⟨msg, i, pc, sent, sends, calls⟩
    obtain ⟨hmsg, hsends, hpc⟩ := hpi
    simp only at hmsg hsends hpc
    cases mpc <;> simp only [communicate, reduceCtorEq] at h
    rename_i j
    cases pc <;> simp only [boringStep, Option.map_some', Option.some.injEq, reduceCtorEq] at h
    rename_i m
    subst h
    simp only [ProducerInv] at hpc
    obtain ⟨hi, hmm, hsent⟩ := hpc
    simp only [MainInv] at hm
    obtain ⟨hj, h5, hout, _⟩ := hm
    simp only at hr
    refine ⟨n + 1, by omega, ?_, ?_, ?_⟩
    · simp only [hr, hmm, msgsTo_succ]
    · simp only [MainInv]
      exact ⟨n, rfl, hj, hmm, hout, by simp⟩
    · intro q hq
      simp only [Option.some.injEq] at hq
      subst hq
      simp only [ProducerInv]
      exact ⟨hmsg, by omega, n, rfl, hi, hsent⟩

theorem inv_step (env : Env) (a : Action) (s t : State) (hs : Inv env s)
    (h : step env a s = some t) : Inv env t := by
  cases a
  · exact inv_mainStep env s t hs h
  · exact inv_producerStep env s t hs h
  · exact inv_communicate env s t hs h

theorem inv_exec (env : Env) (sched : List Action) (s t : State) (hs : Inv env s)
    (h : exec env sched s = some t) : Inv env t := by
  induction sched generalizing s with
  | nil =>
    simp only [exec, Option.some.injEq] at h
    exact h ▸ hs
  | cons a as ih =>
    simp only [exec] at h
    cases hst : step env a s with
    | none => simp [hst] at h
    | some u =>
      rw [hst] at h
      exact ih u (inv_step env a s u hs hst) h

/-! ## Every step uses up potential: runs are finite -/

theorem potential_mainStep (env : Env) (s t : State) (hs : Inv env s)
    (h : mainStep env s = some t) : potential t < potential s := by
  obtain ⟨n, hn, hr, hm, hp⟩ := hs
  rcases s with ⟨mpc, prod, out, rcv⟩
  cases mpc <;> simp only [mainStep, Option.some.injEq, reduceCtorEq] at h <;> subst h
  · simp [potential, mainPotential]
  · simp only [MainInv] at hm
    obtain ⟨h0, hnone, hout⟩ := hm
    subst hnone
    simp [potential, mainPotential, producerPotential, boring]
  · rename_i i
    simp only [MainInv] at hm
    obtain ⟨hi, hout, hsome⟩ := hm
    subst hi
    by_cases h5 : (n : Int) < 5
    · simp only [h5, if_true, potential, mainPotential, Int.toNat_ofNat]
      omega
    · simp only [h5, if_false, potential, mainPotential, Int.toNat_ofNat]
      omega
  · rename_i i m
    simp only [MainInv] at hm
    obtain ⟨k, hk, hi, hmm, hout, hsome⟩ := hm
    subst hk hi
    simp only [potential, mainPotential, wrapInt_small k (by omega), Int.toNat_ofNat]
    omega
  · simp [potential, mainPotential]

theorem potential_producerStep (env : Env) (s t : State) (hs : Inv env s)
    (h : producerStep env s = some t) : potential t < potential s := by
  obtain ⟨n, hn, hr, hm, hp⟩ := hs
  rcases s with ⟨mpc, prod, out, rcv⟩
  cases prod with
  | none => cases mpc <;> simp [producerStep] at h
  | some p =>
    have hpi := hp p rfl
    rcases p with ⟨msg, i, pc, sent, sends, calls⟩
    obtain ⟨hmsg, hsends, hpc⟩ := hpi
    simp only at hmsg hsends hpc
    cases pc <;> cases mpc <;>
      simp only [producerStep, boringStep, Option.map_some', Option.map_none',
        Option.some.injEq, reduceCtorEq] at h <;>
      subst h <;>
      simp only [ProducerInv] at hpc <;>
      first
        | (obtain ⟨hi, hsent⟩ := hpc
           subst hi
           simp only [potential, producerPotential, Int.toNat_ofNat]
           omega)
        | (obtain ⟨k, hk, hi, hsent⟩ := hpc
           subst hk hi
           simp only [potential, producerPotential, Int.toNat_ofNat,
             wrapInt_small k (by omega)]
           omega)

theorem potential_communicate (env : Env) (s t : State) (hs : Inv env s)
    (h : communicate env s = some t) : potential t < potential s := by
  obtain ⟨n, hn, hr, hm, hp⟩ := hs
  rcases s with ⟨mpc, prod, out, rcv⟩
  cases prod with
  | none => cases mpc <;> simp [communicate] at h
  | some p =>
    rcases p with ⟨msg, i, pc, sent, sends, calls⟩
    cases mpc <;> simp only [communicate, reduceCtorEq] at h
    rename_i j
    cases pc <;> simp only [boringStep, Option.map_some', Option.some.injEq, reduceCtorEq] at h
    subst h
    simp only [MainInv] at hm
    obtain ⟨hj, h5, _, _⟩ := hm
    subst hj
    simp only [potential, mainPotential, producerPotential, Int.toNat_ofNat]
    omega

theorem potential_step (env : Env) (a : Action) (s t : State) (hs : Inv env s)
    (h : step env a s = some t) : potential t < potential s := by
  cases a
  · exact potential_mainStep env s t hs h
  · exact potential_producerStep env s t hs h
  · exact potential_communicate env s t hs h

theorem exec_length (env : Env) (sched : List Action) (s t : State) (hs : Inv env s)
    (h : exec env sched s = some t) : sched.length + potential t ≤ potential s := by
  induction sched generalizing s with
  | nil =>
    simp only [exec, Option.some.injEq] at h
    subst h
    simp
  | cons a as ih =>
    simp only [exec] at h
    cases hst : step env a s with
    | none => simp [hst] at h
    | some u =>
      rw [hst] at h
      have h1 := ih u (inv_step env a s u hs hst) h
      have h2 := potential_step env a s u hs hst
      simp only [List.length_cons]
      omega

theorem step_of_exited (env : Env) (a : Action) (s : State) (h : s.mainPc = .exited) :
    step env a s = none := by
  rcases s with ⟨mpc, prod, out, rcv⟩
  simp only at h
  subst h
  cases a
  · rfl
  · simp [step, producerStep]
  · simp [step, communicate]

theorem exists_step (env : Env) (s : State) (hs : Inv env s) (h : s.mainPc ≠ .exited) :
    ∃ a t, step env a s = some t := by
  obtain ⟨n, hn, hr, hm, hp⟩ := hs
  rcases s with ⟨mpc, prod, out, rcv⟩
  cases mpc
  case exited => exact absurd rfl h
  case recv i =>
    cases prod with
    | none => simp [MainInv] at hm
    | some p =>
      have hpi := hp p rfl
      rcases p with ⟨msg, i, pc, sent, sends, calls⟩
      cases pc
      case returned => exact hpi.2.2.elim
      case sending m => exact ⟨.communicate, _, rfl⟩
      all_goals exact ⟨.producer, _, rfl⟩
  all_goals exact ⟨.main, _, rfl⟩

/-! ## The text printed and the quoting of the messages -/

theorem msgsTo_six : msgsTo 6 =
    ["boring! 0", "boring! 1", "boring! 2", "boring! 3", "boring! 4", "boring! 5"] := by
  decide

theorem outAfter_zero (table : Nat → Bool) : outAfter table 0 = "" := rfl

theorem outAfter_five (table : Nat → Bool) :
    outAfter table 5 ++ printlnLeaving = sixLines := by
  rfl

theorem appendEscapedRune_plain (table : Nat → Bool) (c : Char) (h : plain c = true) :
    appendEscapedRune table c = [c] := by
  simp only [plain, Bool.and_eq_true, decide_eq_true_eq, bne_iff_ne, ne_eq] at h
  obtain ⟨⟨⟨h1, h2⟩, h3⟩, h4⟩ := h
  have hp : isPrint table c.toNat = true := by
    unfold isPrint
    rw [if_pos (by omega), if_pos ⟨h1, h2⟩]
  simp [appendEscapedRune, h3, h4, hp]

theorem quoteBody_plain (table : Nat → Bool) (cs : List Char) (h : cs.all plain = true) :
    quoteBody table cs = cs := by
  induction cs with
  | nil => rfl
  | cons c cs ih =>
    simp only [List.all_cons, Bool.and_eq_true] at h
    simp [quoteBody, appendEscapedRune_plain table c h.1, ih h.2]

theorem quote_plain (table : Nat → Bool) (m : String) (h : m.data.all plain = true) :
    quote table m = String.mk [dquote] ++ m ++ String.mk [dquote] := by
  unfold quote
  rw [quoteBody_plain table m.data h]
  apply String.ext
  simp

theorem msgsTo_plain : ∀ m ∈ msgsTo 6, m.data.all plain = true := by
  decide

/-! ## The delays are not observable -/

theorem observe_eraseSleep (s : State) : observe s.eraseSleep = observe s := by
  rcases s with ⟨mpc, prod, out, rcv⟩
  cases prod with
  | none => rfl
  | some p =>
    rcases p with ⟨msg, i, pc, sent, sends, calls⟩
    cases pc <;> rfl

theorem step_eraseSleep (env : Env) (a : Action) (s : State) :
    (step env a s.eraseSleep).map State.eraseSleep = (step env a s).map State.eraseSleep := by
  rcases s with ⟨mpc, prod, out, rcv⟩
  cases prod with
  | none => cases a <;> cases mpc <;>
      simp [step, mainStep, producerStep, communicate, State.eraseSleep]
  | some p =>
    rcases p with ⟨msg, i, pc, sent, sends, calls⟩
    cases a <;> cases mpc <;> cases pc <;>
      simp [step, mainStep, producerStep, communicate, boringStep, State.eraseSleep,
        Producer.eraseSleep]

theorem step_intn (env : Env) (intn2 : Nat → Nat) (a : Action) (s : State) :
    (step env a s).map State.eraseSleep =
      (step { env with intn := intn2 } a s).map State.eraseSleep := by
  rcases s with ⟨mpc, prod, out, rcv⟩
  cases prod with
  | none => cases a <;> cases mpc <;>
      simp [step, mainStep, producerStep, communicate, State.eraseSleep]
  | some p =>
    rcases p with ⟨msg, i, pc, sent, sends, calls⟩
    cases a <;> cases mpc <;> cases pc <;>
      simp [step, mainStep, producerStep, communicate, boringStep, State.eraseSleep,
        Producer.eraseSleep]

theorem exec_intn (env : Env) (intn2 : Nat → Nat) (sched : List Action) (s1 s2 : State)
    (h : s1.eraseSleep = s2.eraseSleep) :
    (exec env sched s1).map State.eraseSleep =
      (exec { env with intn := intn2 } sched s2).map State.eraseSleep := by
  induction sched generalizing s1 s2 with
  | nil =>
    simp only [exec, Option.map_some']
    exact congrArg some h
  | cons a as ih =>
    have key : (step env a s1).map State.eraseSleep =
        (step { env with intn := intn2 } a s2).map State.eraseSleep := by
      have e1 := step_eraseSleep env a s1
      have e2 := step_eraseSleep env a s2
      have e3 := step_intn env intn2 a s2
      rw [h] at e1
      exact e1.symm.trans (e2.trans e3)
    simp only [exec]
    cases h1 : step env a s1 with
    | none =>
      cases h2 : step { env with intn := intn2 } a s2 with
      | none => simp only [Option.none_bind]
      | some t2 =>
        rw [h1, h2] at key
        simp at key
    | some t1 =>
      cases h2 : step { env with intn := intn2 } a s2 with
      | none =>
        rw [h1, h2] at key
        simp at key
      | some t2 =>
        rw [h1, h2] at key
        simp only [Option.map_some', Option.some.injEq] at key
        simp only [Option.some_bind]
        exact ih t1 t2 key

/-! ## Facts about every reachable state -/

theorem inv_of_exec (env : Env) (sched : List Action) (s : State)
    (h : exec env sched main = some s) : Inv env s :=
  inv_exec env sched main s (inv_main env) h

theorem length_le_of_exec (env : Env) (sched : List Action) (s : State)
    (h : exec env sched main = some s) : sched.length ≤ 35 := by
  have h1 := exec_length env sched main s (inv_main env) h
  have h2 : potential main = 35 := rfl
  omega

theorem stuck_iff_exited (env : Env) (s : State) (hs : Inv env s) :
    (∀ a, step env a s = none) ↔ s.mainPc = .exited := by
  constructor
  · intro h
    by_contra hne
    obtain ⟨a, t, ht⟩ := exists_step env s hs hne
    rw [h a] at ht
    cases ht
  · intro h a
    exact step_of_exited env a s h

theorem msgsTo_mem_six (n : Nat) (hn : n ≤ 5) (m : String) (hm : m ∈ msgsTo n) :
    m ∈ msgsTo 6 := by
  interval_cases n <;> revert m <;> decide

theorem inv_received (env : Env) (s : State) (hs : Inv env s) :
    s.received.length ≤ 5 ∧ s.received = msgsTo s.received.length := by
  obtain ⟨n, hn, hr, _, _⟩ := hs
  have hl : s.received.length = n := by rw [hr, msgsTo_length]
  rw [hl]
  exact ⟨hn, hr⟩

theorem inv_stdout (env : Env) (s : State) (hs : Inv env s) :
    (s.mainPc = .exited ∧ s.stdout = sixLines ∧ s.received.length = 5) ∨
    (s.mainPc ≠ .exited ∧ ∃ k, k ≤ s.received.length ∧ s.received.length ≤ 5 ∧
      s.stdout = outAfter env.table k) := by
  obtain ⟨n, hn, hr, hm, _⟩ := hs
  have hl : s.received.length = n := by rw [hr, msgsTo_length]
  rw [hl]
  rcases s with ⟨mpc, prod, out, rcv⟩
  cases mpc <;> simp only [MainInv] at hm
  · right
    exact ⟨by simp, 0, by omega, by omega, by simp [hm.2.2, outAfter]⟩
  · right
    exact ⟨by simp, 0, by omega, by omega, by simp [hm.2.2, outAfter]⟩
  · right
    exact ⟨by simp, n, by omega, by omega, hm.2.1⟩
  · right
    exact ⟨by simp, n, by omega, by omega, hm.2.2.1⟩
  · right
    obtain ⟨k, hk, _, _, hout, _⟩ := hm
    exact ⟨by simp, k, by omega, by omega, hout⟩
  · right
    obtain ⟨h5, hout, _⟩ := hm
    exact ⟨by simp, 5, by omega, by omega, hout⟩
  · left
    obtain ⟨h5, hout, _⟩ := hm
    refine ⟨rfl, ?_, by omega⟩
    rw [hout]
    exact outAfter_five env.table

theorem splitLines_outAfter (table : Nat → Bool) (k : Nat) (hk : k ≤ 5) :
    splitLines (outAfter table k).data [] = (msgsTo k).map messageLine := by
  interval_cases k <;> rfl

theorem splitLines_sixLines :
    splitLines sixLines.data [] = (msgsTo 5).map messageLine ++ [closingLine] := by
  decide

theorem inv_outLines (env : Env) (s : State) (hs : Inv env s) :
    (s.mainPc = .exited ∧ outLines s = (msgsTo 5).map messageLine ++ [closingLine]) ∨
    (s.mainPc ≠ .exited ∧ ∃ k, k ≤ s.received.length ∧ s.received.length ≤ 5 ∧
      outLines s = (msgsTo k).map messageLine) := by
  rcases inv_stdout env s hs with ⟨h1, h2, _⟩ | ⟨h1, k, hk, h5, h2⟩
  · left
    refine ⟨h1, ?_⟩
    unfold outLines
    rw [h2]
    exact splitLines_sixLines
  · right
    refine ⟨h1, k, hk, h5, ?_⟩
    unfold outLines
    rw [h2]
    exact splitLines_outAfter env.table k (by omega)

theorem inv_producer (env : Env) (s : State) (hs : Inv env s) (p : Producer)
    (hp : s.producer = some p) :
    p.msg = "boring!" ∧ p.sends = s.received.length ∧ p.pc ≠ .returned ∧
    ((p.i = (s.received.length : Int) ∧
        (p.sent = msgsTo s.received.length ∨ p.sent = msgsTo (s.received.length + 1))) ∨
     (0 ≤ p.i ∧ p.i + 1 = (s.received.length : Int) ∧ p.sent = msgsTo s.received.length)) := by
  obtain ⟨n, hn, hr, _, hpi⟩ := hs
  have hl : s.received.length = n := by rw [hr, msgsTo_length]
  rw [hl]
  obtain ⟨hmsg, hsends, hpc⟩ := hpi p hp
  rcases p with ⟨msg, i, pc, sent, sends, calls⟩
  simp only at hmsg hsends
  cases pc <;> simp only [ProducerInv] at hpc
  · exact ⟨hmsg, hsends, by simp, Or.inl ⟨hpc.1, Or.inl hpc.2⟩⟩
  · exact ⟨hmsg, hsends, by simp, Or.inl ⟨hpc.1, Or.inr hpc.2.2⟩⟩
  · obtain ⟨k, hk, hi, hsent⟩ := hpc
    refine ⟨hmsg, hsends, by simp, Or.inr ⟨?_, ?_, hsent⟩⟩ <;> simp only <;> omega
  · obtain ⟨k, hk, hi, hsent⟩ := hpc
    refine ⟨hmsg, hsends, by simp, Or.inr ⟨?_, ?_, hsent⟩⟩ <;> simp only <;> omega

theorem inv_sentSoFar (env : Env) (s : State) (hs : Inv env s) :
    sentSoFar s = msgsTo s.received.length ∨ sentSoFar s = msgsTo (s.received.length + 1) := by
  cases hp : s.producer with
  | none =>
    obtain ⟨n, hn, hr, hm, _⟩ := hs
    have hl : s.received.length = n := by rw [hr, msgsTo_length]
    rw [hl]
    left
    rcases s with ⟨mpc, prod, out, rcv⟩
    simp only at hp
    subst hp
    cases mpc <;> simp [MainInv] at hm
    all_goals
      obtain ⟨h0, _⟩ := hm
      subst h0
      rfl
  | some p =>
    have h := (inv_producer env s hs p hp).2.2.2
    have e : sentSoFar s = p.sent := by simp [sentSoFar, observe, hp]
    rw [e]
    rcases h with ⟨_, h | h⟩ | ⟨_, _, h⟩
    · exact Or.inl h
    · exact Or.inr h
    · exact Or.inl h

theorem runProducer_total (env : Env) (n : Nat) (p : Producer) (h : p.pc ≠ .returned) :
    ∃ q, runProducer env n p = some q ∧ q.pc ≠ .returned := by
  induction n generalizing p with
  | zero => exact ⟨p, rfl, h⟩
  | succ n ih =>
    rcases p with ⟨msg, i, pc, sent, sends, calls⟩
    cases pc <;> simp only [runProducer, boringStep, Option.some_bind]
    · exact ih _ (by simp)
    · exact ih _ (by simp)
    · exact ih _ (by simp)
    · exact ih _ (by simp)
    · exact absurd rfl h

theorem boringStep_total (env : Env) (p : Producer) (h : p.pc ≠ .returned) :
    ∃ q, boringStep env p = some q ∧ q.pc ≠ .returned := by
  rcases p with ⟨msg, i, pc, sent, sends, calls⟩
  cases pc <;> simp only [boringStep]
  · exact ⟨_, rfl, by simp⟩
  · exact ⟨_, rfl, by simp⟩
  · exact ⟨_, rfl, by simp⟩
  · exact ⟨_, rfl, by simp⟩
  · exact absurd rfl h

theorem carried_eq (env : Env) (msg : String) (k : Nat) :
    carried env msg k = some (wrapInt (k : Int)) := by
  simp [carried, iteration_eq]

theorem messageAt_eq (env : Env) (msg : String) (k : Nat) :
    messageAt env msg k = some (sprintf msg (wrapInt (k : Int))) := by
  simp [messageAt, iteration_eq]

theorem inv_sendsCompleted (env : Env) (s : State) (hs : Inv env s) :
    sendsCompleted s = s.received.length := by
  cases hp : s.producer with
  | none =>
    obtain ⟨n, hn, hr, hm, _⟩ := hs
    have hl : s.received.length = n := by rw [hr, msgsTo_length]
    rw [hl]
    rcases s with ⟨mpc, prod, out, rcv⟩
    simp only at hp
    subst hp
    cases mpc <;> simp [MainInv] at hm
    all_goals
      obtain ⟨h0, _⟩ := hm
      subst h0
      rfl
  | some p =>
    have h := (inv_producer env s hs p hp).2.1
    simp [sendsCompleted, hp, h]

theorem consumerState_mainStep (env : Env) (s t : State) (h : mainStep env s = some t) :
    t.received = s.received ∧
    (consumerState t.mainPc = consumerState s.mainPc ∨
      consumerState s.mainPc = .starting ∧ consumerState t.mainPc = .receiving 0) := by
  rcases s with ⟨mpc, prod, out, rcv⟩
  cases mpc <;> simp only [mainStep, Option.some.injEq, reduceCtorEq] at h <;> subst h
  · exact ⟨rfl, Or.inl rfl⟩
  · exact ⟨rfl, Or.inr ⟨rfl, rfl⟩⟩
  · rename_i i
    refine ⟨rfl, Or.inl ?_⟩
    by_cases h5 : i < 5 <;> simp [consumerState, h5]
  · exact ⟨rfl, Or.inl rfl⟩
  · exact ⟨rfl, Or.inl rfl⟩

theorem consumerState_producerStep (env : Env) (s t : State)
    (h : producerStep env s = some t) :
    t.received = s.received ∧ consumerState t.mainPc = consumerState s.mainPc := by
  rcases s with ⟨mpc, prod, out, rcv⟩
  cases prod with
  | none => cases mpc <;> simp [producerStep] at h
  | some p =>
    rcases p with ⟨msg, i, pc, sent, sends, calls⟩
    cases pc <;> cases mpc <;>
      simp only [producerStep, boringStep, Option.map_some', Option.map_none',
        Option.some.injEq, reduceCtorEq] at h <;>
      subst h <;> exact ⟨rfl, rfl⟩

theorem consumerState_communicate (env : Env) (s t : State) (hs : Inv env s)
    (h : communicate env s = some t) :
    t.received.length = s.received.length + 1 ∧
    ∃ i : Nat, s.received.length = i ∧ consumerState s.mainPc = .receiving (i : Int) ∧
      (i < 4 ∧ consumerState t.mainPc = .receiving ((i : Int) + 1) ∨
        i = 4 ∧ consumerState t.mainPc = .done) := by
  obtain ⟨n, hn, hr, hm, hp⟩ := hs
  have hl : s.received.length = n := by rw [hr, msgsTo_length]
  rw [hl]
  rcases s with ⟨mpc, prod, out, rcv⟩
  simp only at hl
  cases prod with
  | none => cases mpc <;> simp [communicate] at h
  | some p =>
    rcases p with ⟨msg, i, pc, sent, sends, calls⟩
    cases mpc <;> simp only [communicate, reduceCtorEq] at h
    rename_i j
    cases pc <;> simp only [boringStep, Option.map_some', Option.some.injEq, reduceCtorEq] at h
    subst h
    simp only [MainInv] at hm
    obtain ⟨hj, h5, _, _⟩ := hm
    subst hj
    refine ⟨by simp [hl], n, rfl, rfl, ?_⟩
    simp only [consumerState, wrapInt_small n (by omega)]
    by_cases h4 : n < 4
    · left
      refine ⟨h4, ?_⟩
      rw [if_pos (by omega)]
      simp
    · right
      refine ⟨by omega, ?_⟩
      rw [if_neg (by omega)]

theorem consumerState_of_inv (env : Env) (s : State) (hs : Inv env s) :
    (consumerState s.mainPc = .starting ∧ s.received.length = 0) ∨
    (∃ i : Nat, i < 5 ∧ consumerState s.mainPc = .receiving (i : Int) ∧ s.received.length = i) ∨
    (consumerState s.mainPc = .done ∧ s.received.length = 5) := by
  obtain ⟨n, hn, hr, hm, hp⟩ := hs
  have hl : s.received.length = n := by rw [hr, msgsTo_length]
  rw [hl]
  rcases s with ⟨mpc, prod, out, rcv⟩
  cases mpc <;> simp only [MainInv] at hm
  · exact Or.inl ⟨rfl, hm.1⟩
  · exact Or.inl ⟨rfl, hm.1⟩
  · obtain ⟨hi, _, _⟩ := hm
    subst hi
    by_cases h5 : n < 5
    · exact Or.inr (Or.inl ⟨n, h5, by simp [consumerState, h5], rfl⟩)
    · exact Or.inr (Or.inr ⟨by simp [consumerState, h5], by omega⟩)
  · obtain ⟨hi, h5, _, _⟩ := hm
    subst hi
    exact Or.inr (Or.inl ⟨n, h5, rfl, rfl⟩)
  · obtain ⟨k, hk, hi, _, _, _⟩ := hm
    subst hk hi
    simp only [consumerState, wrapInt_small k (by omega)]
    by_cases h5 : k + 1 < 5
    · refine Or.inr (Or.inl ⟨k + 1, h5, ?_, rfl⟩)
      rw [if_pos (by omega)]
    · refine Or.inr (Or.inr ⟨?_, by omega⟩)
      rw [if_neg (by omega)]
  · exact Or.inr (Or.inr ⟨rfl, hm.1⟩)
  · exact Or.inr (Or.inr ⟨rfl, hm.1⟩)

theorem sleepDuration_filter (r : Nat) (hr : r < 1000) :
    (Finset.range 1000).filter (fun x => sleepDuration x = sleepDuration r) = {r} := by
  ext x
  simp only [Finset.mem_filter, Finset.mem_range, Finset.mem_singleton]
  constructor
  · rintro ⟨hx, h⟩
    rw [sleepDuration_of_lt x hx, sleepDuration_of_lt r hr] at h
    omega
  · rintro rfl
    exact ⟨hr, rfl⟩

/-! ## The claims -/

/-- C1: every run of `main`, whatever the delays and the interleaving, stops after at
most 35 steps; it can go on exactly as long as `main` has not exited; and once
`main` has exited the text on standard output is the five message lines for
the counters 0 to 4 followed by the closing line, each ended by a newline.
Every received message is rendered by `%q` as the message between two double
quotes, with no escape sequence. -/
theorem main_prints_six_lines (env : Env) (sched : List Action) (s : State)
    (h : exec env sched main = some s) :
    sched.length ≤ 35 ∧
    ((∀ a, step env a s = none) ↔ s.mainPc = .exited) ∧
    (s.mainPc = .exited → s.stdout =
      "You say: \"boring! 0\"\nYou say: \"boring! 1\"\nYou say: \"boring! 2\"\nYou say: \"boring! 3\"\nYou say: \"boring! 4\"\nYou are boring, I'm leaving\n") ∧
    (∀ m ∈ s.received,
      quote env.table m = String.mk [dquote] ++ m ++ String.mk [dquote]) := by
  have hs := inv_of_exec env sched s h
  refine ⟨length_le_of_exec env sched s h, stuck_iff_exited env s hs, ?_, ?_⟩
  · intro he
    rcases inv_stdout env s hs with ⟨_, h2, _⟩ | ⟨h1, _⟩
    · exact h2
    · exact absurd he h1
  · intro m hm
    obtain ⟨h5, hr⟩ := inv_received env s hs
    rw [hr] at hm
    exact quote_plain env.table m
      (msgsTo_plain m (msgsTo_mem_six s.received.length h5 m hm))

theorem main_prints_six_lines_witness :
    exec sampleEnv fullSchedule main = some finalState ∧
    finalState.stdout =
      "You say: \"boring! 0\"\nYou say: \"boring! 1\"\nYou say: \"boring! 2\"\nYou say: \"boring! 3\"\nYou say: \"boring! 4\"\nYou are boring, I'm leaving\n" :=
  ⟨by decide, (main_prints_six_lines sampleEnv fullSchedule finalState (by decide)).2.2.1 rfl⟩

/-- C2, as stated, fails: with the label `ping`, iteration 2^63 - 1 holds the counter
2^63 - 1 and sends `ping 9223372036854775807`, and the next iteration holds
-2^63 and sends `ping -9223372036854775808`: the later message does not
carry the previous counter plus 1. -/
theorem increment_wraps_at_max_int :
    carried sampleEnv "ping" 9223372036854775807 = some 9223372036854775807 ∧
    messageAt sampleEnv "ping" 9223372036854775807 = some "ping 9223372036854775807" ∧
    carried sampleEnv "ping" 9223372036854775808 = some (-9223372036854775808) ∧
    messageAt sampleEnv "ping" 9223372036854775808 = some "ping -9223372036854775808" ∧
    (-9223372036854775808 : Int) ≠ 9223372036854775807 + 1 := by
  refine ⟨?_, ?_, ?_, ?_, by decide⟩
  · rw [carried_eq]
    decide
  · rw [messageAt_eq]
    decide
  · rw [carried_eq]
    decide
  · rw [messageAt_eq]
    decide

/-- C2, amended: for every label `msg` and every iteration `k` of `boring`, the
iteration is reached and the message sent in it is `msg`, one space, and the
base-10 rendering of the counter `i` held in it: the decimal digits of `i`,
after a minus sign when `i` is negative.  The first iteration holds 0 and
sends `msg`, a space and `0`.  When the counter `i` of an iteration is below
the largest `int`, 2^63 - 1, the next iteration holds `i + 1`; when it is the
largest `int`, the next iteration holds the smallest one, -2^63.  Up to
iteration 2^63 - 1 the counter is the iteration number `k` and the message is
`msg`, a space and the decimal digits of `k`. -/
theorem message_format_and_increment (env : Env) (msg : String) (k : Nat) :
    (∃ i, carried env msg k = some i ∧
      messageAt env msg k =
        some (msg ++ " " ++ (if i < 0 then "-" ++ Nat.repr i.natAbs else Nat.repr i.toNat))) ∧
    carried env msg 0 = some 0 ∧
    messageAt env msg 0 = some (msg ++ " " ++ "0") ∧
    (∀ i, carried env msg k = some i → i < maxInt → carried env msg (k + 1) = some (i + 1)) ∧
    (∀ i, carried env msg k = some i → i = maxInt → carried env msg (k + 1) = some minInt) ∧
    ((k : Int) ≤ maxInt →
      carried env msg k = some (k : Int) ∧
      messageAt env msg k = some (msg ++ " " ++ Nat.repr k)) := by
  refine ⟨⟨wrapInt (k : Int), carried_eq env msg k, ?_⟩, ?_, ?_, ?_, ?_, ?_⟩
  · rw [messageAt_eq]
    rfl
  · rw [carried_eq]
    rfl
  · rw [messageAt_eq]
    rfl
  · intro i hi hlt
    rw [carried_eq] at hi
    simp only [Option.some.injEq] at hi
    rw [carried_eq]
    simp only [Option.some.injEq, Nat.cast_add, Nat.cast_one]
    rw [← wrapInt_succ_wrapInt, hi]
    have hlo : minInt ≤ i := by
      rw [← hi]
      unfold wrapInt minInt
      omega
    exact wrapInt_of_inRange (i + 1) (by unfold minInt at *; omega) (by unfold maxInt at *; omega)
  · intro i hi hmax
    rw [carried_eq] at hi
    simp only [Option.some.injEq] at hi
    rw [carried_eq]
    simp only [Option.some.injEq, Nat.cast_add, Nat.cast_one]
    rw [← wrapInt_succ_wrapInt, hi, hmax]
    decide
  · intro hk
    have hwk : wrapInt (k : Int) = k :=
      wrapInt_of_inRange _ (by unfold minInt; omega) hk
    refine ⟨by rw [carried_eq, hwk], ?_⟩
    rw [messageAt_eq, hwk]
    have hnn : ¬ ((k : Int) < 0) := by omega
    simp [sprintf, fmtInt, hnn]

theorem message_format_and_increment_witness :
    carried sampleEnv "boring!" 12 = some 12 ∧ (12 : Int) < maxInt ∧
    carried sampleEnv "boring!" (12 + 1) = some (12 + 1) ∧
    ((12 : Nat) : Int) ≤ maxInt ∧
    messageAt sampleEnv "boring!" 12 = some "boring! 12" :=
  ⟨by decide, by decide,
    (message_format_and_increment sampleEnv "boring!" 12).2.2.2.1 12 (by decide) (by decide),
    by decide,
    ((message_format_and_increment sampleEnv "boring!" 12).2.2.2.2.2 (by decide)).2⟩

/-- C3: in every reachable state the messages received so far are an initial segment
of the messages on which the producer has executed its send statement, at
most one message shorter: message number `k` received is message number `k`
sent, and nothing is lost, duplicated or reordered. -/
theorem received_matches_sent (env : Env) (sched : List Action) (s : State)
    (h : exec env sched main = some s) :
    s.received <+: sentSoFar s ∧
    (sentSoFar s).length ≤ s.received.length + 1 ∧
    (∀ (k : Nat) (m : String), s.received[k]? = some m → (sentSoFar s)[k]? = some m) := by
  have hs := inv_of_exec env sched s h
  obtain ⟨_, hr⟩ := inv_received env s hs
  have hpre : s.received <+: sentSoFar s := by
    rcases inv_sentSoFar env s hs with e | e
    · rw [e, ← hr]
    · rw [e, msgsTo_succ, ← hr]
      exact ⟨_, rfl⟩
  refine ⟨hpre, ?_, ?_⟩
  · rcases inv_sentSoFar env s hs with e | e
    · rw [e, msgsTo_length]
      omega
    · rw [e, msgsTo_length]
  · intro k m hk
    obtain ⟨t, ht⟩ := hpre
    have hlt : k < s.received.length := by
      by_contra hge
      rw [List.getElem?_eq_none (by omega)] at hk
      cases hk
    rw [← ht, List.getElem?_append_left hlt]
    exact hk

theorem received_matches_sent_witness :
    exec sampleEnv eagerSchedule main = some eagerState ∧
    eagerState.received <+: sentSoFar eagerState :=
  ⟨by decide, (received_matches_sent sampleEnv eagerSchedule eagerState (by decide)).1⟩

/-- C4: two runs under the same schedule that differ only in the values returned by
`rand.Intn` are enabled together, and show the same messages sent and the
same text printed. -/
theorem delays_do_not_matter (env : Env) (intn2 : Nat → Nat) (sched : List Action) :
    (exec env sched main).map observe =
      (exec { env with intn := intn2 } sched main).map observe := by
  have h := exec_intn env intn2 sched main main rfl
  have key : ∀ x : Option State, x.map observe = (x.map State.eraseSleep).map observe := by
    intro x
    cases x with
    | none => rfl
    | some t => simp [observe_eraseSleep]
  rw [key (exec env sched main), key (exec { env with intn := intn2 } sched main), h]

/-- C5: in every reachable state the closing line occurs at most once among the lines
of standard output; when it occurs, the output is exactly the five message
lines followed by the closing line, five messages were received and no
further step is possible; when it does not occur, the output consists of the
first `k` message lines for some `k` up to 5. -/
theorem closing_line_once_and_last (env : Env) (sched : List Action) (s : State)
    (h : exec env sched main = some s) :
    (outLines s).count closingLine ≤ 1 ∧
    (closingLine ∈ outLines s →
      outLines s =
        ["You say: \"boring! 0\"", "You say: \"boring! 1\"", "You say: \"boring! 2\"",
         "You say: \"boring! 3\"", "You say: \"boring! 4\"", "You are boring, I'm leaving"] ∧
      s.received.length = 5 ∧ ∀ a, step env a s = none) ∧
    (closingLine ∉ outLines s →
      ∃ k, k ≤ 5 ∧ k ≤ s.received.length ∧ outLines s = (msgsTo k).map messageLine) := by
  have hs := inv_of_exec env sched s h
  have hnot : ∀ k, k ≤ 5 → closingLine ∉ (msgsTo k).map messageLine := by
    intro k hk
    interval_cases k <;> decide
  rcases inv_outLines env s hs with ⟨h1, h2⟩ | ⟨h1, k, hk, h5, h2⟩
  · rw [h2]
    refine ⟨by decide, fun _ => ⟨by decide, ?_, fun a => step_of_exited env a s h1⟩, ?_⟩
    · rcases inv_stdout env s hs with ⟨_, _, h3⟩ | ⟨h3, _⟩
      · exact h3
      · exact absurd h1 h3
    · intro hn
      exact absurd (by decide) hn
  · rw [h2]
    have hk5 : k ≤ 5 := by omega
    refine ⟨?_, fun hin => absurd hin (hnot k hk5), fun _ => ⟨k, hk5, hk, rfl⟩⟩
    rw [List.count_eq_zero_of_not_mem (hnot k hk5)]
    omega

theorem closing_line_once_and_last_witness :
    exec sampleEnv fullSchedule main = some finalState ∧
    (outLines finalState).count closingLine ≤ 1 :=
  ⟨by decide, (closing_line_once_and_last sampleEnv fullSchedule finalState (by decide)).1⟩

/-- C6: the consumer follows the state machine Starting, Receiving(i), Done.  In every
reachable state it is Starting with no receipt, or Receiving(i) with `i < 5`
after exactly `i` receipts, or Done after exactly 5 receipts; so Done goes
with 5 receipts, never fewer or more, and no Receiving(i) with `i >= 5` is
reached.  A receipt moves Receiving(i) to Receiving(i+1) for `i < 4` and
Receiving(4) to Done; a step of the producer leaves the consumer state alone;
a step of `main` leaves it alone or moves Starting to Receiving(0); and a
step exists as long as `main` has not exited, so that every run goes on to
Done. -/
theorem consumer_state_machine (env : Env) (sched : List Action) (s : State)
    (h : exec env sched main = some s) :
    ((consumerState s.mainPc = .starting ∧ s.received.length = 0) ∨
      (∃ i : Nat, i < 5 ∧ consumerState s.mainPc = .receiving (i : Int) ∧
        s.received.length = i) ∨
      (consumerState s.mainPc = .done ∧ s.received.length = 5)) ∧
    (∀ t, step env .communicate s = some t →
      t.received.length = s.received.length + 1 ∧
      ∃ i : Nat, s.received.length = i ∧ consumerState s.mainPc = .receiving (i : Int) ∧
        (i < 4 ∧ consumerState t.mainPc = .receiving ((i : Int) + 1) ∨
          i = 4 ∧ consumerState t.mainPc = .done)) ∧
    (∀ t, step env .producer s = some t →
      t.received = s.received ∧ consumerState t.mainPc = consumerState s.mainPc) ∧
    (∀ t, step env .main s = some t →
      t.received = s.received ∧
      (consumerState t.mainPc = consumerState s.mainPc ∨
        consumerState s.mainPc = .starting ∧ consumerState t.mainPc = .receiving 0)) ∧
    (s.mainPc ≠ .exited → ∃ a t, step env a s = some t) ∧
    (consumerState s.mainPc = .done → s.received.length = 5) ∧
    (∀ i : Int, consumerState s.mainPc = .receiving i →
      0 ≤ i ∧ i < 5 ∧ (s.received.length : Int) = i) := by
  have hs := inv_of_exec env sched s h
  refine ⟨consumerState_of_inv env s hs,
    fun t ht => consumerState_communicate env s t hs ht,
    fun t ht => consumerState_producerStep env s t ht,
    fun t ht => consumerState_mainStep env s t ht,
    fun hne => exists_step env s hs hne, ?_, ?_⟩
  · intro hd
    rcases consumerState_of_inv env s hs with ⟨h1, _⟩ | ⟨i, _, h1, _⟩ | ⟨_, h2⟩
    · rw [hd] at h1
      cases h1
    · rw [hd] at h1
      cases h1
    · exact h2
  · intro i hi
    rcases consumerState_of_inv env s hs with ⟨h1, _⟩ | ⟨j, hj, h1, h2⟩ | ⟨h1, _⟩
    · rw [hi] at h1
      cases h1
    · rw [hi] at h1
      simp only [ConsumerState.receiving.injEq] at h1
      subst h1
      rw [h2]
      exact ⟨by omega, by omega, rfl⟩
    · rw [hi] at h1
      cases h1

theorem consumer_state_machine_witness :
    exec sampleEnv midSchedule main = some midState ∧
    ((consumerState midState.mainPc = .starting ∧ midState.received.length = 0) ∨
      (∃ i : Nat, i < 5 ∧ consumerState midState.mainPc = .receiving (i : Int) ∧
        midState.received.length = i) ∨
      (consumerState midState.mainPc = .done ∧ midState.received.length = 5)) :=
  ⟨by decide, (consumer_state_machine sampleEnv midSchedule midState (by decide)).1⟩

/-- C7: the producer `boring` never returns.  Run on its own with a receiver always
ready, for any label and any delays, it is still running after any number of
steps; every producer state other than the returned one has a successor,
which is again not the returned one; and in no reachable state of the
program has the producer returned. -/
theorem boring_never_returns (env : Env) (msg : String) (n : Nat) :
    (∃ p, runProducer env n (boring msg) = some p ∧ p.pc ≠ .returned) ∧
    (∀ p : Producer, p.pc ≠ .returned →
      ∃ q, boringStep env p = some q ∧ q.pc ≠ .returned) ∧
    (∀ (sched : List Action) (s : State) (p : Producer),
      exec env sched main = some s → s.producer = some p → p.pc ≠ .returned) := by
  refine ⟨runProducer_total env n (boring msg) (by simp [boring]),
    fun p hp => boringStep_total env p hp, ?_⟩
  intro sched s p h hp
  exact (inv_producer env s (inv_of_exec env sched s h) p hp).2.2.1

theorem boring_never_returns_witness :
    exec sampleEnv eagerSchedule main = some eagerState ∧
    ProducerPc.sending "boring! 5" ≠ ProducerPc.returned :=
  ⟨by decide,
    (boring_never_returns sampleEnv "boring!" 0).2.2 eagerSchedule eagerState
      { msg := "boring!", i := 5, pc := .sending "boring! 5",
        sent := ["boring! 0", "boring! 1", "boring! 2", "boring! 3", "boring! 4", "boring! 5"],
        sends := 5, calls := 5 }
      (by decide) rfl⟩

/-- C8, as stated, fails: in iteration 2^63 - 1 the counter is 2^63 - 1, and in
iteration 2^63 it has wrapped to -2^63, which is neither 2^63 nor above the
counter of the iteration before; the message sent carries the negative
number. -/
theorem counter_wraps_at_two_pow_63 :
    carried sampleEnv "boring!" 9223372036854775807 = some 9223372036854775807 ∧
    carried sampleEnv "boring!" 9223372036854775808 = some (-9223372036854775808) ∧
    messageAt sampleEnv "boring!" 9223372036854775808 = some "boring! -9223372036854775808" := by
  refine ⟨?_, ?_, ?_⟩
  · rw [carried_eq]
    decide
  · rw [carried_eq]
    decide
  · rw [messageAt_eq]
    decide

/-- C8, amended: up to the largest `int` the counter is strictly increasing and equals
the iteration number: for iterations `j < k` with `k <= 2^63 - 1`, iteration
`j` holds `j`, iteration `k` holds `k`, the first is below the second, and
the message of iteration `k` is the label, a space and the decimal digits of
`k`.  The counter is bounded: in every iteration it lies between -2^63 and
2^63 - 1. -/
theorem counter_increasing_below_wrap (env : Env) (msg : String) (j k : Nat)
    (hjk : j < k) (hk : (k : Int) ≤ maxInt) :
    carried env msg j = some (j : Int) ∧ carried env msg k = some (k : Int) ∧
    (∀ cj ck, carried env msg j = some cj → carried env msg k = some ck → cj < ck) ∧
    messageAt env msg k = some (msg ++ " " ++ Nat.repr k) ∧
    (∀ (n : Nat) (c : Int), carried env msg n = some c → minInt ≤ c ∧ c ≤ maxInt) := by
  have hwk : wrapInt (k : Int) = k :=
    wrapInt_of_inRange _ (by unfold minInt; omega) hk
  have hwj : wrapInt (j : Int) = j :=
    wrapInt_of_inRange _ (by unfold minInt; omega) (by unfold maxInt at *; omega)
  refine ⟨by rw [carried_eq, hwj], by rw [carried_eq, hwk], ?_, ?_, ?_⟩
  · intro cj ck h1 h2
    rw [carried_eq, hwj] at h1
    rw [carried_eq, hwk] at h2
    simp only [Option.some.injEq] at h1 h2
    omega
  · rw [messageAt_eq, hwk]
    have hnn : ¬ ((k : Int) < 0) := by omega
    simp [sprintf, fmtInt, hnn]
  · intro n c hc
    rw [carried_eq] at hc
    simp only [Option.some.injEq] at hc
    rw [← hc]
    unfold wrapInt minInt maxInt
    omega

theorem counter_increasing_below_wrap_witness :
    2 < 7 ∧ ((7 : Nat) : Int) ≤ maxInt ∧
    messageAt sampleEnv "boring!" 7 = some ("boring!" ++ " " ++ Nat.repr 7) :=
  ⟨by decide, by decide,
    (counter_increasing_below_wrap sampleEnv "boring!" 2 7 (by decide) (by decide)).2.2.2.1⟩

/-- C9: for every value `r` returned by `rand.Intn(1e3)`, that is `0 <= r < 1000`, the
duration slept is `r` milliseconds: the 64-bit product equals the exact
product `r * 1000000`, so it does not overflow, it is not negative, it is
below 1000 milliseconds and a whole number of milliseconds.  Distinct values
give distinct durations, so when `rand.Intn` gives each value with
probability 1/1000, each duration has probability 1/1000. -/
theorem sleep_duration_in_range (r : Nat) (hr : r < 1000) (p : Nat → ℚ)
    (hp : ∀ x, x < 1000 → p x = 1 / 1000) :
    sleepDuration r = (r : Int) * millisecond ∧
    0 ≤ sleepDuration r ∧ sleepDuration r < 1000 * millisecond ∧
    sleepDuration r ≤ maxInt ∧
    sleepDuration r % millisecond = 0 ∧ sleepDuration r / millisecond = (r : Int) ∧
    Finset.sum ((Finset.range 1000).filter (fun x => sleepDuration x = sleepDuration r)) p
      = 1 / 1000 := by
  have h := sleepDuration_of_lt r hr
  refine ⟨h, ?_, ?_, ?_, ?_, ?_, ?_⟩
  · rw [h]
    omega
  · rw [h]
    unfold millisecond
    omega
  · rw [h]
    unfold maxInt
    omega
  · rw [h]
    unfold millisecond
    omega
  · rw [h]
    unfold millisecond
    omega
  · rw [sleepDuration_filter r hr, Finset.sum_singleton]
    exact hp r hr

theorem sleep_duration_in_range_witness :
    250 < 1000 ∧ sleepDuration 250 = ((250 : Nat) : Int) * millisecond :=
  ⟨by decide,
    (sleep_duration_in_range 250 (by decide) (fun _ => 1 / 1000) (fun _ _ => rfl)).1⟩

/-- C10: in every reachable state the number of sends completed equals the number of
receives completed and is at most 5; the counter of the producer is between
0 and 5 and its increment does not wrap; the messages on which a send
statement was executed are an initial segment of the six messages for the
counters 0 to 5; and the message for 5 is neither received nor printed. -/
theorem counter_at_most_five (env : Env) (sched : List Action) (s : State)
    (h : exec env sched main = some s) :
    sendsCompleted s = s.received.length ∧ s.received.length ≤ 5 ∧
    (∀ p, s.producer = some p → 0 ≤ p.i ∧ p.i ≤ 5 ∧ wrapInt (p.i + 1) = p.i + 1) ∧
    sentSoFar s <+:
      ["boring! 0", "boring! 1", "boring! 2", "boring! 3", "boring! 4", "boring! 5"] ∧
    "boring! 5" ∉ s.received ∧
    messageLine "boring! 5" ∉ outLines s := by
  have hs := inv_of_exec env sched s h
  obtain ⟨h5, hr⟩ := inv_received env s hs
  refine ⟨inv_sendsCompleted env s hs, h5, ?_, ?_, ?_, ?_⟩
  · intro p hp
    have hi : 0 ≤ p.i ∧ p.i ≤ 5 := by
      have hq := (inv_producer env s hs p hp).2.2.2
      generalize s.received.length = n at h5 hq
      rcases hq with ⟨hi, _⟩ | ⟨h0, hi, _⟩
      · constructor <;> omega
      · constructor <;> omega
    exact ⟨hi.1, hi.2, wrapInt_of_inRange _ (by unfold minInt; omega) (by unfold maxInt; omega)⟩
  · have e := inv_sentSoFar env s hs
    generalize s.received.length = n at h5 e
    rcases e with e | e <;> rw [e] <;> interval_cases n <;> decide
  · rw [hr]
    generalize s.received.length = n at h5
    interval_cases n <;> decide
  · rcases inv_outLines env s hs with ⟨_, h2⟩ | ⟨_, k, hk, _, h2⟩
    · rw [h2]
      decide
    · rw [h2]
      have hk5 : k ≤ 5 := by omega
      interval_cases k <;> decide

theorem counter_at_most_five_witness :
    exec sampleEnv eagerSchedule main = some eagerState ∧
    sendsCompleted eagerState = eagerState.received.length ∧
    eagerState.received.length ≤ 5 :=
  ⟨by decide,
    (counter_at_most_five sampleEnv eagerSchedule eagerState (by decide)).1,
    (counter_at_most_five sampleEnv eagerSchedule eagerState (by decide)).2.1⟩

end Boring
